import Mathlib

/-!
Verification of the tree/flat-key transcoding engine and vault facade of the
`azure-key-vault` package.  JavaScript strings are modelled as `List Char` and
JavaScript objects as association lists in insertion order, with the
update-or-append assignment semantics of `obj[k] = v`.
-/

set_option autoImplicit false

namespace AKV

/-- A JavaScript string, modelled as its list of characters. -/
abbrev Str := List Char

/-- JavaScript object property assignment `m[k] = v`: overwrite in place if the
key is present, otherwise append at the end (insertion order). -/
def setKey {α : Type} : List (Str × α) → Str → α → List (Str × α)
  | [], k, v => [(k, v)]
  | (k', v') :: rest, k, v =>
      if k' = k then (k, v) :: rest else (k', v') :: setKey rest k v

/-- JavaScript property read `m[k]`, `none` meaning `undefined`. -/
def lookupKey {α : Type} : List (Str × α) → Str → Option α
  | [], _ => none
  | (k', v') :: rest, k => if k' = k then some v' else lookupKey rest k

/-- The keys of an object, in insertion order. -/
def keysOf {α : Type} (m : List (Str × α)) : List Str := m.map Prod.fst

/-- `Object.assign(dst, src)`: assign every property of `src` into `dst`,
left to right. -/
def objAssign {α : Type} (dst src : List (Str × α)) : List (Str × α) :=
  src.foldl (fun d kv => setKey d kv.1 kv.2) dst

/-- `true` iff the two characters form the `--` separator. -/
def isSepAt (c1 c2 : Char) : Bool := c1 = '-' && c2 = '-'

/-- `key.split('--')`: leftmost, non-overlapping split on the two-character
separator, as the JavaScript `String.split` of a plain string argument. -/
def splitSep : Str → List Str
  | [] => [[]]
  | [c] => [[c]]
  | c1 :: c2 :: rest =>
      if isSepAt c1 c2 then [] :: splitSep rest
      else
        match splitSep (c2 :: rest) with
        | p :: ps => (c1 :: p) :: ps
        | [] => [[]]
termination_by l => l.length
decreasing_by all_goals simp +arith

/-- Join a list of path segments with the `--` separator (the string that
`flatten` builds by successive concatenations `ns ++ key ++ "--"`). -/
def joinSep : List Str → Str
  | [] => []
  | [p] => p
  | p :: q :: rest => p ++ '-' :: '-' :: joinSep (q :: rest)
termination_by l => l.length
decreasing_by all_goals simp +arith

/-- `true` iff the string contains no occurrence of the `--` separator. -/
def noSepB : Str → Bool
  | [] => true
  | [_] => true
  | c1 :: c2 :: rest => !isSepAt c1 c2 && noSepB (c2 :: rest)
termination_by l => l.length
decreasing_by all_goals simp +arith

/-- `true` iff the string ends with a dash. -/
def endsWithDash (s : Str) : Bool := s.getLast? = some '-'

/-- The `key.split` on the regex alternation of `:` and `--` used by `set`:
leftmost scan splitting on a single colon or on a double dash. -/
def splitSections : Str → List Str
  | [] => [[]]
  | [c] => if c = ':' then [[], []] else [[c]]
  | c1 :: c2 :: rest =>
      if c1 = ':' then [] :: splitSections (c2 :: rest)
      else if isSepAt c1 c2 then [] :: splitSections rest
      else
        match splitSections (c2 :: rest) with
        | p :: ps => (c1 :: p) :: ps
        | [] => [[]]
termination_by l => l.length
decreasing_by all_goals simp +arith

/-- Characters collapsed by the first `secretName` rewrite. -/
def isUnderscoreSpace (c : Char) : Bool := c = '_' || c = ' '

/-- `.replace(/[_ ]+/g, '-')`: each maximal run of underscores and spaces
becomes a single dash.  The boolean flag records whether the previous
character belonged to such a run. -/
def collapseRunsAux : Bool → Str → Str
  | _, [] => []
  | inRun, c :: rest =>
      if isUnderscoreSpace c then
        if inRun then collapseRunsAux true rest
        else '-' :: collapseRunsAux true rest
      else c :: collapseRunsAux false rest

/-- `.replace(/[_ ]+/g, '-')` on a whole string. -/
def collapseRuns (s : Str) : Str := collapseRunsAux false s

/-- `.replace(/:/g, '--')`. -/
def replaceColons : Str → Str
  | [] => []
  | c :: rest =>
      if c = ':' then '-' :: '-' :: replaceColons rest
      else c :: replaceColons rest

/-- `.replace(/[$]/g, '')`. -/
def stripDollars (s : Str) : Str := s.filter (fun c => c ≠ '$')

/-- `.toLowerCase()`. -/
def lowerStr (s : Str) : Str := s.map Char.toLower

/-- `key.includes('$')`. -/
def containsDollar (s : Str) : Bool := s.contains '$'

/-- The JSON-like values exchanged with callers: scalars, arrays and nested
mappings (`AzureKeyVaultSecrets`).  JavaScript numbers are restricted to the
integers, which is all the repository's values ever use. -/
inductive SecretValue where
  | null
  | str (s : Str)
  | num (n : Int)
  | bool (b : Bool)
  | arr (elems : List SecretValue)
  | obj (fields : List (Str × SecretValue))

/-- JavaScript falsiness of a `SecretValue` (`undefined` is represented by an
absent key, `NaN` does not arise for integer values). -/
def jsFalsy : SecretValue → Bool
  | .null => true
  | .str [] => true
  | .str (_ :: _) => false
  | .num n => n = 0
  | .bool b => !b
  | .arr _ => false
  | .obj _ => false

/-- The `--` level separator of the tree codec. -/
def sepStr : Str := ['-', '-']

/-- `flatten(secrets, namespace)` from `flatten.util.ts`, with the mutable
`flattened` object made an explicit accumulator: a scalar or `null` value is
emitted at `namespace ++ key`, an array is emitted unchanged as a leaf, and a
non-array object is flattened recursively under `namespace ++ key ++ "--"`
and merged into the accumulator by `Object.assign`. -/
def flattenAux : Str → List (Str × SecretValue) → List (Str × SecretValue) →
    List (Str × SecretValue)
  | _, acc, [] => acc
  | ns, acc, (key, value) :: rest =>
      match value with
      | .obj fields =>
          flattenAux ns (objAssign acc (flattenAux (ns ++ key ++ sepStr) [] fields)) rest
      | v => flattenAux ns (setKey acc (ns ++ key) v) rest
termination_by _ _ l => sizeOf l

/-- `flatten(secrets, namespace)` (the exported entry point starts from an
empty `flattened` object). -/
def flatten (secrets : List (Str × SecretValue)) (ns : Str) : List (Str × SecretValue) :=
  flattenAux ns [] secrets

/-- `rearmTree(restored, members, value)` from `flatten.util.ts`: walk/create
the intermediate objects named by `members` and assign `value` at the last
segment.  A falsy intermediate value is replaced by a fresh `{}` exactly as
`if (!restored[namespace]) restored[namespace] = {}` does; a truthy non-object
intermediate (a conflicting partial path, behaviour the package leaves
undefined) is modelled as leaving the object unchanged. -/
def rearmTree : List (Str × SecretValue) → List Str → SecretValue →
    List (Str × SecretValue)
  | restored, [], _ => restored
  | restored, [ns], v => setKey restored ns v
  | restored, ns :: m :: rest, v =>
      match lookupKey restored ns with
      | some (.obj fields) => setKey restored ns (.obj (rearmTree fields (m :: rest) v))
      | some c =>
          if jsFalsy c then setKey restored ns (.obj (rearmTree [] (m :: rest) v))
          else restored
      | none => setKey restored ns (.obj (rearmTree [] (m :: rest) v))

/-- `deflatten(secrets)` from `flatten.util.ts`: for each entry in order,
split the key on `--` and rebuild the property tree. -/
def deflatten (secrets : List (Str × SecretValue)) : List (Str × SecretValue) :=
  secrets.foldl (fun restored kv => rearmTree restored (splitSep kv.1) kv.2) []

/-! ### Association-list lemmas -/

section AssocLemmas

variable {α : Type}

theorem keysOf_nil : keysOf ([] : List (Str × α)) = [] := rfl

theorem keysOf_cons {p : Str × α} {m : List (Str × α)} :
    keysOf (p :: m) = p.1 :: keysOf m := rfl

theorem keysOf_append {m m' : List (Str × α)} :
    keysOf (m ++ m') = keysOf m ++ keysOf m' := List.map_append _ _ _

theorem lookupKey_eq_none {m : List (Str × α)} {k : Str} :
    lookupKey m k = none ↔ k ∉ keysOf m := by
  induction m with
  | nil => simp [lookupKey, keysOf]
  | cons p rest ih =>
      obtain ⟨k', v'⟩ := p
      by_cases h : k' = k
      · subst h; simp [lookupKey, keysOf_cons]
      · have h' : ¬k = k' := fun heq => h heq.symm
        simp [lookupKey, keysOf_cons, h, h', ih]

theorem lookupKey_append_of_not_mem {m m' : List (Str × α)} {k : Str}
    (h : k ∉ keysOf m) : lookupKey (m ++ m') k = lookupKey m' k := by
  induction m with
  | nil => rfl
  | cons p rest ih =>
      obtain ⟨k', v'⟩ := p
      simp only [keysOf_cons, List.mem_cons, not_or] at h
      have h' : ¬k' = k := fun heq => h.1 heq.symm
      simp [lookupKey, h', ih h.2]

theorem setKey_of_not_mem {m : List (Str × α)} {k : Str} (v : α)
    (h : k ∉ keysOf m) : setKey m k v = m ++ [(k, v)] := by
  induction m with
  | nil => rfl
  | cons p rest ih =>
      obtain ⟨k', v'⟩ := p
      simp only [keysOf_cons, List.mem_cons, not_or] at h
      have h' : ¬k' = k := fun heq => h.1 heq.symm
      simp [setKey, h', ih h.2]

theorem lookupKey_setKey_self {m : List (Str × α)} {k : Str} {v : α} :
    lookupKey (setKey m k v) k = some v := by
  induction m with
  | nil => simp [setKey, lookupKey]
  | cons p rest ih =>
      obtain ⟨k', v'⟩ := p
      by_cases h : k' = k <;> simp [setKey, lookupKey, h, ih]

theorem setKey_setKey_self {m : List (Str × α)} {k : Str} {v w : α} :
    setKey (setKey m k v) k w = setKey m k w := by
  induction m with
  | nil => simp [setKey]
  | cons p rest ih =>
      obtain ⟨k', v'⟩ := p
      by_cases h : k' = k <;> simp [setKey, h, ih]

theorem setKey_of_lookupKey_eq {m : List (Str × α)} {k : Str} {v : α}
    (h : lookupKey m k = some v) : setKey m k v = m := by
  induction m with
  | nil => simp [lookupKey] at h
  | cons p rest ih =>
      obtain ⟨k', v'⟩ := p
      by_cases hk : k' = k
      · subst hk
        simp [lookupKey] at h
        simp [setKey, h]
      · simp [lookupKey, hk] at h
        simp [setKey, hk, ih h]

theorem mem_of_mem_setKey {m : List (Str × α)} {k : Str} {v : α} {p : Str × α}
    (h : p ∈ setKey m k v) : p ∈ m ∨ p = (k, v) := by
  induction m with
  | nil => simpa [setKey] using h
  | cons q rest ih =>
      obtain ⟨k', v'⟩ := q
      by_cases hk : k' = k
      · simp [setKey, hk] at h
        rcases h with h | h
        · exact Or.inr h
        · exact Or.inl (List.mem_cons_of_mem _ h)
      · simp only [setKey, if_neg hk, List.mem_cons] at h
        rcases h with h | h
        · exact Or.inl (h ▸ List.mem_cons_self _ _)
        · rcases ih h with h' | h'
          · exact Or.inl (List.mem_cons_of_mem _ h')
          · exact Or.inr h'

theorem objAssign_nil (dst : List (Str × α)) : objAssign dst [] = dst := rfl

theorem objAssign_cons {dst src : List (Str × α)} {k : Str} {v : α} :
    objAssign dst ((k, v) :: src) = objAssign (setKey dst k v) src := rfl

theorem objAssign_eq_append {dst src : List (Str × α)}
    (hdisj : ∀ a ∈ keysOf src, a ∉ keysOf dst) (hnd : (keysOf src).Nodup) :
    objAssign dst src = dst ++ src := by
  induction src generalizing dst with
  | nil => simp [objAssign]
  | cons p src' ih =>
      obtain ⟨k, v⟩ := p
      rw [objAssign_cons,
        setKey_of_not_mem v (hdisj k (by simp [keysOf_cons]))]
      rw [keysOf_cons] at hnd
      have hnd' := hnd.of_cons
      have hk : k ∉ keysOf src' := by
        intro hmem
        exact (List.nodup_cons.mp hnd).1 hmem
      rw [ih ?_ hnd', List.append_assoc]
      · rfl
      · intro a ha
        rw [keysOf_append]
        simp only [List.mem_append, keysOf_cons, keysOf_nil, List.mem_singleton, not_or]
        refine ⟨hdisj a (by simp [keysOf_cons, ha]), ?_⟩
        intro heq
        exact hk (heq ▸ ha)

theorem mem_of_mem_objAssign {dst src : List (Str × α)} {p : Str × α}
    (h : p ∈ objAssign dst src) : p ∈ dst ∨ p ∈ src := by
  induction src generalizing dst with
  | nil => exact Or.inl h
  | cons q src' ih =>
      obtain ⟨k, v⟩ := q
      rw [objAssign_cons] at h
      rcases ih h with h' | h'
      · rcases mem_of_mem_setKey h' with h'' | h''
        · exact Or.inl h''
        · exact Or.inr (h'' ▸ List.mem_cons_self _ _)
      · exact Or.inr (List.mem_cons_of_mem _ h')

end AssocLemmas

/-! ### Split/join lemmas for the `--` path encoding -/

theorem splitSep_ne_nil : ∀ (s : Str), splitSep s ≠ []
  | [] => by simp [splitSep]
  | [c] => by simp [splitSep]
  | c1 :: c2 :: rest => by
      by_cases h : isSepAt c1 c2
      · simp [splitSep, h, splitSep_ne_nil rest]
      · simp only [splitSep, if_neg h]
        cases hs : splitSep (c2 :: rest) with
        | nil => simp
        | cons p ps => simp

theorem noSepB_cons_cons {c1 c2 : Char} {rest : Str} :
    noSepB (c1 :: c2 :: rest) = (!isSepAt c1 c2 && noSepB (c2 :: rest)) := by
  simp [noSepB]

theorem splitSep_of_noSep : ∀ (p : Str), noSepB p = true → splitSep p = [p]
  | [], _ => by simp [splitSep]
  | [c], _ => by simp [splitSep]
  | c1 :: c2 :: rest, h => by
      rw [noSepB_cons_cons] at h
      simp only [Bool.and_eq_true, Bool.not_eq_true'] at h
      have ih := splitSep_of_noSep (c2 :: rest) h.2
      simp [splitSep, h.1, ih]
termination_by p => p.length
decreasing_by all_goals simp +arith

theorem splitSep_append_sep : ∀ (p s : Str), noSepB p = true → endsWithDash p = false →
    splitSep (p ++ '-' :: '-' :: s) = p :: splitSep s
  | [], s, _, _ => by simp [splitSep, isSepAt]
  | [c], s, _, hd => by
      simp only [endsWithDash, List.getLast?_singleton, Option.some.injEq] at hd
      have hc : ¬c = '-' := of_decide_eq_false hd
      simp [splitSep, isSepAt, hc]
  | c1 :: c2 :: rest, s, h, hd => by
      rw [noSepB_cons_cons] at h
      simp only [Bool.and_eq_true, Bool.not_eq_true'] at h
      have hd' : endsWithDash (c2 :: rest) = false := by
        simpa [endsWithDash, List.getLast?_cons_cons] using hd
      have ih := splitSep_append_sep (c2 :: rest) s h.2 hd'
      simp only [List.cons_append]
      rw [List.cons_append] at ih
      simp [splitSep, h.1, ih]
termination_by p _ _ _ => p.length
decreasing_by all_goals simp +arith

/-- The segment lists that round-trip through `joinSep`/`splitSep`: nonempty,
no segment contains `--`, and no segment other than the last ends with a
dash. -/
def goodParts : List Str → Bool
  | [] => false
  | [p] => noSepB p
  | p :: q :: rest => noSepB p && !endsWithDash p && goodParts (q :: rest)
termination_by l => l.length
decreasing_by all_goals simp +arith

theorem goodParts_singleton {p : Str} : goodParts [p] = noSepB p := by
  simp [goodParts]

theorem goodParts_cons_of_ne_nil {k : Str} {p : List Str} (hp : p ≠ [])
    (h1 : noSepB k = true) (h2 : endsWithDash k = false)
    (h3 : goodParts p = true) : goodParts (k :: p) = true := by
  cases p with
  | nil => exact absurd rfl hp
  | cons q rest => simp [goodParts, h1, h2, h3]

theorem joinSep_cons_of_ne_nil {k : Str} {p : List Str} (h : p ≠ []) :
    joinSep (k :: p) = k ++ '-' :: '-' :: joinSep p := by
  cases p with
  | nil => exact absurd rfl h
  | cons q rest => simp [joinSep]

theorem splitSep_joinSep : ∀ (parts : List Str), goodParts parts = true →
    splitSep (joinSep parts) = parts
  | [], h => by simp [goodParts] at h
  | [p], h => by
      rw [goodParts_singleton] at h
      simp [joinSep, splitSep_of_noSep p h]
  | p :: q :: rest, h => by
      simp only [goodParts, Bool.and_eq_true, Bool.not_eq_true'] at h
      have ih := splitSep_joinSep (q :: rest) h.2
      have hj : joinSep (p :: q :: rest) = p ++ '-' :: '-' :: joinSep (q :: rest) := by
        simp [joinSep]
      rw [hj, splitSep_append_sep p _ h.1.1 h.1.2, ih]
termination_by ps => ps.length
decreasing_by all_goals simp +arith

theorem joinSep_inj {ps qs : List Str} (hp : goodParts ps = true)
    (hq : goodParts qs = true) (h : joinSep ps = joinSep qs) : ps = qs := by
  have := splitSep_joinSep ps hp
  rw [h, splitSep_joinSep qs hq] at this
  exact this.symm

/-! ### Leaf paths of a nested structure -/

/-- The list of (path to a leaf, leaf value) pairs of a nested structure, in
the depth-first order in which `flatten` visits them.  Model-level helper used
to state what `flatten` computes. -/
def leafPaths : List (Str × SecretValue) → List (List Str × SecretValue)
  | [] => []
  | (k, v) :: rest =>
      match v with
      | .obj fields =>
          (leafPaths fields).map (fun pv => (k :: pv.1, pv.2)) ++ leafPaths rest
      | v => ([k], v) :: leafPaths rest
termination_by l => sizeOf l

/-- Well-formedness of a nested structure for the amended round-trip claim:
at every object level the keys are pairwise distinct, no key contains the
`--` separator, every key whose value is an object does not end with a dash,
and every object value is nonempty. -/
def goodFields : List (Str × SecretValue) → Bool
  | [] => true
  | (k, v) :: rest =>
      noSepB k && !(decide (k ∈ keysOf rest)) &&
      (match v with
       | .obj fields => !endsWithDash k && !fields.isEmpty && goodFields fields
       | _ => true) &&
      goodFields rest
termination_by l => sizeOf l

theorem leafPaths_cons_obj {k : Str} {fields rest : List (Str × SecretValue)} :
    leafPaths ((k, .obj fields) :: rest) =
      (leafPaths fields).map (fun pv => (k :: pv.1, pv.2)) ++ leafPaths rest := by
  simp [leafPaths]

theorem leafPaths_cons_of_ne_obj {k : Str} {v : SecretValue}
    {rest : List (Str × SecretValue)} (h : ∀ fields, v ≠ .obj fields) :
    leafPaths ((k, v) :: rest) = ([k], v) :: leafPaths rest := by
  cases v <;> first
    | exact absurd rfl (h _)
    | simp [leafPaths]

theorem goodFields_cons_obj_iff {k : Str} {fields rest : List (Str × SecretValue)} :
    goodFields ((k, .obj fields) :: rest) = true ↔
      noSepB k = true ∧ k ∉ keysOf rest ∧ endsWithDash k = false ∧
      fields ≠ [] ∧ goodFields fields = true ∧ goodFields rest = true := by
  simp [goodFields, Bool.and_eq_true, Bool.not_eq_true', List.isEmpty_iff,
    and_assoc]

theorem goodFields_cons_of_ne_obj {k : Str} {v : SecretValue}
    {rest : List (Str × SecretValue)} (h : ∀ fields, v ≠ .obj fields) :
    goodFields ((k, v) :: rest) = true ↔
      noSepB k = true ∧ k ∉ keysOf rest ∧ goodFields rest = true := by
  cases v <;> first
    | exact absurd rfl (h _)
    | simp [goodFields, Bool.and_eq_true, Bool.not_eq_true', and_assoc]

theorem paths_ne_nil :
    ∀ (l : List (Str × SecretValue)) (pv : List Str × SecretValue),
      pv ∈ leafPaths l → pv.1 ≠ []
  | [], _, hmem => by simp [leafPaths] at hmem
  | (k, v) :: rest, pv, hmem => by
      cases v with
      | obj fields =>
          simp only [leafPaths, List.mem_append, List.mem_map] at hmem
          rcases hmem with ⟨qv, _, rfl⟩ | hmem
          · simp
          · exact paths_ne_nil rest pv hmem
      | null =>
          simp only [leafPaths, List.mem_cons] at hmem
          rcases hmem with rfl | hmem
          · simp
          · exact paths_ne_nil rest pv hmem
      | str s =>
          simp only [leafPaths, List.mem_cons] at hmem
          rcases hmem with rfl | hmem
          · simp
          · exact paths_ne_nil rest pv hmem
      | num n =>
          simp only [leafPaths, List.mem_cons] at hmem
          rcases hmem with rfl | hmem
          · simp
          · exact paths_ne_nil rest pv hmem
      | bool b =>
          simp only [leafPaths, List.mem_cons] at hmem
          rcases hmem with rfl | hmem
          · simp
          · exact paths_ne_nil rest pv hmem
      | arr es =>
          simp only [leafPaths, List.mem_cons] at hmem
          rcases hmem with rfl | hmem
          · simp
          · exact paths_ne_nil rest pv hmem
termination_by l => sizeOf l

theorem paths_head_mem :
    ∀ (l : List (Str × SecretValue)) (pv : List Str × SecretValue),
      pv ∈ leafPaths l → ∃ h t, pv.1 = h :: t ∧ h ∈ keysOf l
  | [], _, hmem => by simp [leafPaths] at hmem
  | (k, v) :: rest, pv, hmem => by
      have step :
          pv ∈ leafPaths rest → ∃ h t, pv.1 = h :: t ∧ h ∈ keysOf ((k, v) :: rest) := by
        intro hmem'
        obtain ⟨h, t, ht, hk⟩ := paths_head_mem rest pv hmem'
        exact ⟨h, t, ht, by simp [keysOf_cons, hk]⟩
      cases v with
      | obj fields =>
          simp only [leafPaths, List.mem_append, List.mem_map] at hmem
          rcases hmem with ⟨qv, _, rfl⟩ | hmem
          · exact ⟨k, qv.1, rfl, by simp [keysOf_cons]⟩
          · exact step hmem
      | null =>
          simp only [leafPaths, List.mem_cons] at hmem
          rcases hmem with rfl | hmem
          · exact ⟨k, [], rfl, by simp [keysOf_cons]⟩
          · exact step hmem
      | str s =>
          simp only [leafPaths, List.mem_cons] at hmem
          rcases hmem with rfl | hmem
          · exact ⟨k, [], rfl, by simp [keysOf_cons]⟩
          · exact step hmem
      | num n =>
          simp only [leafPaths, List.mem_cons] at hmem
          rcases hmem with rfl | hmem
          · exact ⟨k, [], rfl, by simp [keysOf_cons]⟩
          · exact step hmem
      | bool b =>
          simp only [leafPaths, List.mem_cons] at hmem
          rcases hmem with rfl | hmem
          · exact ⟨k, [], rfl, by simp [keysOf_cons]⟩
          · exact step hmem
      | arr es =>
          simp only [leafPaths, List.mem_cons] at hmem
          rcases hmem with rfl | hmem
          · exact ⟨k, [], rfl, by simp [keysOf_cons]⟩
          · exact step hmem
termination_by l => sizeOf l

theorem paths_good :
    ∀ (l : List (Str × SecretValue)), goodFields l = true →
      ∀ pv ∈ leafPaths l, goodParts pv.1 = true
  | [], _, pv, hmem => by simp [leafPaths] at hmem
  | (k, v) :: rest, hl, pv, hmem => by
      by_cases hobj : ∃ fields, v = SecretValue.obj fields
      · obtain ⟨fields, rfl⟩ := hobj
        rw [goodFields_cons_obj_iff] at hl
        obtain ⟨hk, _, hdash, _, hf, hrest⟩ := hl
        rw [leafPaths_cons_obj] at hmem
        rcases List.mem_append.mp hmem with hmem | hmem
        · obtain ⟨qv, hq, rfl⟩ := List.mem_map.mp hmem
          exact goodParts_cons_of_ne_nil (paths_ne_nil fields qv hq) hk hdash
            (paths_good fields hf qv hq)
        · exact paths_good rest hrest pv hmem
      · have hne : ∀ fields, v ≠ SecretValue.obj fields :=
          fun fields h => hobj ⟨fields, h⟩
        rw [goodFields_cons_of_ne_obj hne] at hl
        rw [leafPaths_cons_of_ne_obj hne] at hmem
        rcases List.mem_cons.mp hmem with rfl | hmem
        · simpa [goodParts_singleton] using hl.1
        · exact paths_good rest hl.2.2 pv hmem
termination_by l => sizeOf l

theorem paths_fst_nodup :
    ∀ (l : List (Str × SecretValue)), goodFields l = true →
      ((leafPaths l).map Prod.fst).Nodup
  | [], _ => by simp [leafPaths]
  | (k, v) :: rest, hl => by
      by_cases hobj : ∃ fields, v = SecretValue.obj fields
      · obtain ⟨fields, rfl⟩ := hobj
        rw [goodFields_cons_obj_iff] at hl
        obtain ⟨_, hkr, _, _, hf, hrest⟩ := hl
        rw [leafPaths_cons_obj, List.map_append]
        refine List.Nodup.append ?_ (paths_fst_nodup rest hrest) ?_
        · rw [List.map_map]
          have hfe :
              (Prod.fst ∘ fun pv : List Str × SecretValue => (k :: pv.1, pv.2)) =
                (List.cons k ∘ Prod.fst) := rfl
          rw [hfe, ← List.map_map]
          exact (paths_fst_nodup fields hf).map (List.cons_injective)
        · intro x hx hx'
          rw [List.map_map] at hx
          obtain ⟨qv, _, rfl⟩ := List.mem_map.mp hx
          obtain ⟨pv, hpv, hfst⟩ := List.mem_map.mp hx'
          obtain ⟨h, t, hht, hmem⟩ := paths_head_mem rest pv hpv
          have hk2 : h :: t = k :: qv.1 := by
            rw [← hht, hfst]; rfl
          have hhk : h = k := by injection hk2 with h1 _
          exact hkr (hhk ▸ hmem)
      · have hne : ∀ fields, v ≠ SecretValue.obj fields :=
          fun fields h => hobj ⟨fields, h⟩
        rw [goodFields_cons_of_ne_obj hne] at hl
        obtain ⟨_, hkr, hrest⟩ := hl
        rw [leafPaths_cons_of_ne_obj hne]
        rw [List.map_cons, List.nodup_cons]
        refine ⟨?_, paths_fst_nodup rest hrest⟩
        intro hx
        obtain ⟨pv, hpv, hfst⟩ := List.mem_map.mp hx
        obtain ⟨h, t, hht, hmem⟩ := paths_head_mem rest pv hpv
        rw [hht] at hfst
        have : h = k := by injection hfst with h1 _
        exact hkr (this ▸ hmem)
termination_by l => sizeOf l

/-- Two flat keys built from a namespace and good segment lists disagree when
the second's head key does not occur in the structure the first comes from. -/
theorem flatKey_ne_of_head_not_mem {l : List (Str × SecretValue)}
    {pv : List Str × SecretValue} {ns : Str} {qs : List Str}
    (hl : goodFields l = true) (hpv : pv ∈ leafPaths l)
    (hq : goodParts qs = true)
    (hhead : ∀ h t, qs = h :: t → h ∉ keysOf l) :
    ns ++ joinSep pv.1 ≠ ns ++ joinSep qs := by
  intro heq
  have h1 : joinSep pv.1 = joinSep qs := List.append_cancel_left heq
  have h2 := joinSep_inj (paths_good l hl pv hpv) hq h1
  obtain ⟨h, t, hht, hmem⟩ := paths_head_mem l pv hpv
  exact hhead h t (h2 ▸ hht) hmem

/-- What `flatten` computes on a well-formed structure: one entry per leaf
path, in depth-first order, keyed by the `--`-joined path under the
namespace. -/
theorem flatten_eq_leafPaths :
    ∀ (l : List (Str × SecretValue)) (ns : Str) (acc : List (Str × SecretValue)),
      goodFields l = true →
      (∀ pv ∈ leafPaths l, (ns ++ joinSep pv.1) ∉ keysOf acc) →
      flattenAux ns acc l =
        acc ++ (leafPaths l).map (fun pv => (ns ++ joinSep pv.1, pv.2))
  | [], ns, acc, _, _ => by simp [flattenAux, leafPaths]
  | (k, v) :: rest, ns, acc, hl, hdisj => by
      by_cases hobj : ∃ fields, v = SecretValue.obj fields
      · obtain ⟨fields, rfl⟩ := hobj
        rw [goodFields_cons_obj_iff] at hl
        obtain ⟨hk, hkr, hdash, hfne, hf, hrest⟩ := hl
        have hgoodcons : ∀ pv ∈ leafPaths fields, goodParts (k :: pv.1) = true := by
          intro pv hpv
          exact goodParts_cons_of_ne_nil (paths_ne_nil fields pv hpv) hk hdash
            (paths_good fields hf pv hpv)
        have hinner :=
          flatten_eq_leafPaths fields (ns ++ k ++ sepStr) [] hf
            (by intro pv _; simp [keysOf_nil])
        rw [List.nil_append] at hinner
        have hchunk :
            (leafPaths fields).map
                (fun pv => (ns ++ k ++ sepStr ++ joinSep pv.1, pv.2)) =
              (leafPaths fields).map
                (fun pv => (ns ++ joinSep (k :: pv.1), pv.2)) := by
          apply List.map_congr_left
          intro pv hpv
          rw [joinSep_cons_of_ne_nil (paths_ne_nil fields pv hpv)]
          simp [sepStr]
        have hstep : flattenAux ns acc ((k, SecretValue.obj fields) :: rest) =
            flattenAux ns
              (objAssign acc (flattenAux (ns ++ k ++ sepStr) [] fields)) rest := by
          simp [flattenAux]
        rw [hstep, hinner, hchunk]
        have hmemchunk :
            ∀ a ∈ keysOf ((leafPaths fields).map
                (fun pv => (ns ++ joinSep (k :: pv.1), pv.2))),
              ∃ pv ∈ leafPaths fields, a = ns ++ joinSep (k :: pv.1) := by
          intro a ha
          simp only [keysOf, List.map_map] at ha
          obtain ⟨pv, hpv, hfa⟩ := List.mem_map.mp ha
          exact ⟨pv, hpv, hfa.symm⟩
        have hassign :
            objAssign acc ((leafPaths fields).map
                (fun pv => (ns ++ joinSep (k :: pv.1), pv.2))) =
              acc ++ (leafPaths fields).map
                (fun pv => (ns ++ joinSep (k :: pv.1), pv.2)) := by
          apply objAssign_eq_append
          · intro a ha
            obtain ⟨pv, hpv, rfl⟩ := hmemchunk a ha
            apply hdisj (k :: pv.1, pv.2)
            rw [leafPaths_cons_obj]
            exact List.mem_append_left _
              (List.mem_map.mpr ⟨pv, hpv, rfl⟩)
          · simp only [keysOf, List.map_map]
            have hfe :
                ((fun p : Str × SecretValue => p.1) ∘
                    fun pv : List Str × SecretValue =>
                      (ns ++ joinSep (k :: pv.1), pv.2)) =
                  ((fun q : List Str => ns ++ joinSep (k :: q)) ∘ Prod.fst) := rfl
            rw [hfe, ← List.map_map]
            apply List.Nodup.map_on ?_ (paths_fst_nodup fields hf)
            intro p hp q hq heq
            obtain ⟨pv, hpv, rfl⟩ := List.mem_map.mp hp
            obtain ⟨qv, hqv, rfl⟩ := List.mem_map.mp hq
            have h1 : joinSep (k :: pv.1) = joinSep (k :: qv.1) :=
              List.append_cancel_left heq
            have h2 := joinSep_inj (hgoodcons pv hpv) (hgoodcons qv hqv) h1
            injection h2
        rw [hassign]
        rw [flatten_eq_leafPaths rest ns _ hrest ?_]
        · rw [leafPaths_cons_obj, List.map_append, List.map_map,
            List.append_assoc]
          rfl
        · intro pv hpv
          rw [keysOf_append]
          simp only [List.mem_append, not_or]
          constructor
          · apply hdisj pv
            rw [leafPaths_cons_obj]
            exact List.mem_append_right _ hpv
          · intro ha
            obtain ⟨qv, hqv, hfa⟩ := hmemchunk _ ha
            exact flatKey_ne_of_head_not_mem hrest hpv (hgoodcons qv hqv)
              (by intro h t hht hmem; injection hht with h1 _;
                  exact hkr (h1 ▸ hmem)) hfa
      · have hne : ∀ fields, v ≠ SecretValue.obj fields :=
          fun fields h => hobj ⟨fields, h⟩
        rw [goodFields_cons_of_ne_obj hne] at hl
        obtain ⟨hk, hkr, hrest⟩ := hl
        have hstep : flattenAux ns acc ((k, v) :: rest) =
            flattenAux ns (setKey acc (ns ++ k) v) rest := by
          cases v <;> first
            | exact absurd rfl (hne _)
            | simp [flattenAux]
        have hkacc : (ns ++ k) ∉ keysOf acc := by
          have := hdisj ([k], v)
            (by rw [leafPaths_cons_of_ne_obj hne]; exact List.mem_cons_self _ _)
          simpa [joinSep] using this
        rw [hstep, setKey_of_not_mem v hkacc]
        rw [flatten_eq_leafPaths rest ns _ hrest ?_]
        · rw [leafPaths_cons_of_ne_obj hne]
          simp [joinSep]
        · intro pv hpv
          rw [keysOf_append]
          simp only [List.mem_append, not_or]
          constructor
          · apply hdisj pv
            rw [leafPaths_cons_of_ne_obj hne]
            exact List.mem_cons_of_mem _ hpv
          · simp only [keysOf_cons, keysOf_nil, List.not_mem_nil,
              List.mem_cons, not_or]
            refine ⟨?_, fun h => h⟩
            have hqk : goodParts [k] = true := by
              rw [goodParts_singleton]; exact hk
            have hne2 : ns ++ joinSep pv.1 ≠ ns ++ joinSep [k] :=
              flatKey_ne_of_head_not_mem hrest hpv hqk
                (by intro h t hht hmem; injection hht with h1 _;
                    exact hkr (h1 ▸ hmem))
            simpa [joinSep] using hne2
termination_by l _ _ => sizeOf l

/-! ### Rebuilding: `deflatten` recovers the structure -/

theorem setKey_ne_nil {α : Type} {m : List (Str × α)} {k : Str} {v : α} :
    setKey m k v ≠ [] := by
  cases m with
  | nil => simp [setKey]
  | cons p rest =>
      obtain ⟨k', v'⟩ := p
      by_cases h : k' = k <;> simp [setKey, h]

theorem leafPaths_ne_nil :
    ∀ (l : List (Str × SecretValue)), goodFields l = true → l ≠ [] →
      leafPaths l ≠ []
  | [], _, hne => absurd rfl hne
  | (k, v) :: rest, hl, _ => by
      by_cases hobj : ∃ fields, v = SecretValue.obj fields
      · obtain ⟨fields, rfl⟩ := hobj
        rw [goodFields_cons_obj_iff] at hl
        obtain ⟨_, _, _, hfne, hf, _⟩ := hl
        rw [leafPaths_cons_obj]
        intro hcontra
        rcases List.append_eq_nil.mp hcontra with ⟨h1, _⟩
        exact leafPaths_ne_nil fields hf hfne (List.map_eq_nil_iff.mp h1)
      · have hne : ∀ fields, v ≠ SecretValue.obj fields :=
          fun fields h => hobj ⟨fields, h⟩
        rw [leafPaths_cons_of_ne_obj hne]
        simp
termination_by l => sizeOf l

/-- Insert a list of (segment path, value) pairs with `rearmTree`, in order
(the fold that `deflatten` performs after splitting each key). -/
def rearmFold (pre : List (Str × SecretValue))
    (ps : List (List Str × SecretValue)) : List (Str × SecretValue) :=
  ps.foldl (fun r pv => rearmTree r pv.1 pv.2) pre

theorem rearmFold_nil {pre : List (Str × SecretValue)} : rearmFold pre [] = pre := rfl

theorem rearmFold_cons {pre : List (Str × SecretValue)} {q : List Str}
    {v : SecretValue} {ps : List (List Str × SecretValue)} :
    rearmFold pre ((q, v) :: ps) = rearmFold (rearmTree pre q v) ps := rfl

theorem rearmTree_cons_obj {acc flds : List (Str × SecretValue)} {k m : Str}
    {rest : List Str} {v : SecretValue}
    (hl : lookupKey acc k = some (.obj flds)) :
    rearmTree acc (k :: m :: rest) v =
      setKey acc k (.obj (rearmTree flds (m :: rest) v)) := by
  simp [rearmTree, hl]

theorem rearmTree_cons_none {acc : List (Str × SecretValue)} {k m : Str}
    {rest : List Str} {v : SecretValue} (hl : lookupKey acc k = none) :
    rearmTree acc (k :: m :: rest) v =
      setKey acc k (.obj (rearmTree [] (m :: rest) v)) := by
  simp [rearmTree, hl]

theorem rearmFold_map_cons_obj :
    ∀ (qs : List (List Str × SecretValue)) (acc : List (Str × SecretValue))
      (k : Str) (flds : List (Str × SecretValue)),
      (∀ pv ∈ qs, pv.1 ≠ []) →
      lookupKey acc k = some (.obj flds) →
      rearmFold acc (qs.map (fun pv => (k :: pv.1, pv.2))) =
        setKey acc k (.obj (rearmFold flds qs))
  | [], acc, k, flds, _, hl => by
      simp [rearmFold, setKey_of_lookupKey_eq hl]
  | (q, v) :: qs', acc, k, flds, hne, hl => by
      obtain ⟨q1, qt, rfl⟩ : ∃ q1 qt, q = q1 :: qt := by
        rcases q with _ | ⟨q1, qt⟩
        · exact absurd rfl (hne ([], v) (by simp))
        · exact ⟨q1, qt, rfl⟩
      rw [List.map_cons, rearmFold_cons, rearmTree_cons_obj hl]
      rw [rearmFold_map_cons_obj qs' _ k (rearmTree flds (q1 :: qt) v)
        (fun pv hpv => hne pv (List.mem_cons_of_mem _ hpv))
        lookupKey_setKey_self]
      rw [setKey_setKey_self, rearmFold_cons]

theorem rearmFold_map_cons_none
    {qs : List (List Str × SecretValue)} {acc : List (Str × SecretValue)}
    {k : Str} (hqs : qs ≠ []) (hne : ∀ pv ∈ qs, pv.1 ≠ [])
    (hl : lookupKey acc k = none) :
    rearmFold acc (qs.map (fun pv => (k :: pv.1, pv.2))) =
      setKey acc k (.obj (rearmFold [] qs)) := by
  rcases qs with _ | ⟨⟨q, v⟩, qs'⟩
  · exact absurd rfl hqs
  · obtain ⟨q1, qt, rfl⟩ : ∃ q1 qt, q = q1 :: qt := by
      rcases q with _ | ⟨q1, qt⟩
      · exact absurd rfl (hne ([], v) (by simp))
      · exact ⟨q1, qt, rfl⟩
    rw [List.map_cons, rearmFold_cons, rearmTree_cons_none hl]
    rw [rearmFold_map_cons_obj qs' _ k (rearmTree [] (q1 :: qt) v)
      (fun pv hpv => hne pv (List.mem_cons_of_mem _ hpv))
      lookupKey_setKey_self]
    rw [setKey_setKey_self, rearmFold_cons]

theorem rearmFold_leafPaths :
    ∀ (l : List (Str × SecretValue)) (pre : List (Str × SecretValue)),
      goodFields l = true →
      (∀ a ∈ keysOf l, a ∉ keysOf pre) →
      rearmFold pre (leafPaths l) = pre ++ l
  | [], pre, _, _ => by simp [leafPaths, rearmFold]
  | (k, v) :: rest, pre, hl, hdisj => by
      have hkpre : k ∉ keysOf pre := hdisj k (by simp [keysOf_cons])
      have hdisjrest : ∀ a ∈ keysOf rest, a ∉ keysOf pre :=
        fun a ha => hdisj a (by simp [keysOf_cons, ha])
      by_cases hobj : ∃ fields, v = SecretValue.obj fields
      · obtain ⟨fields, rfl⟩ := hobj
        rw [goodFields_cons_obj_iff] at hl
        obtain ⟨_, hkr, _, hfne, hf, hrest⟩ := hl
        rw [leafPaths_cons_obj]
        rw [rearmFold, List.foldl_append, ← rearmFold, ← rearmFold]
        rw [rearmFold_map_cons_none
          (leafPaths_ne_nil fields hf hfne)
          (fun pv hpv => paths_ne_nil fields pv hpv)
          (lookupKey_eq_none.mpr hkpre)]
        rw [rearmFold_leafPaths fields [] hf (by simp [keysOf_nil])]
        rw [List.nil_append]
        rw [setKey_of_not_mem _ hkpre]
        rw [rearmFold_leafPaths rest _ hrest ?_]
        · rw [List.append_assoc]
          rfl
        · intro a ha
          rw [keysOf_append]
          simp only [List.mem_append, not_or, keysOf_cons, keysOf_nil,
            List.not_mem_nil, List.mem_cons, not_or]
          exact ⟨hdisjrest a ha, fun h => hkr (h ▸ ha), fun h => h⟩
      · have hne : ∀ fields, v ≠ SecretValue.obj fields :=
          fun fields h => hobj ⟨fields, h⟩
        rw [goodFields_cons_of_ne_obj hne] at hl
        obtain ⟨_, hkr, hrest⟩ := hl
        rw [leafPaths_cons_of_ne_obj hne]
        rw [rearmFold_cons]
        have hstep : rearmTree pre [k] v = setKey pre k v := by simp [rearmTree]
        rw [hstep, setKey_of_not_mem v hkpre]
        rw [rearmFold_leafPaths rest _ hrest ?_]
        · rw [List.append_assoc]
          rfl
        · intro a ha
          rw [keysOf_append]
          simp only [List.mem_append, not_or, keysOf_cons, keysOf_nil,
            List.not_mem_nil, List.mem_cons, not_or]
          exact ⟨hdisjrest a ha, fun h => hkr (h ▸ ha), fun h => h⟩
termination_by l _ => sizeOf l

/-- Round trip on well-formed structures: `deflatten (flatten x)` rebuilds
`x` exactly. -/
theorem deflatten_flatten {l : List (Str × SecretValue)}
    (h : goodFields l = true) : deflatten (flatten l []) = l := by
  rw [flatten, flatten_eq_leafPaths l [] [] h (by simp [keysOf_nil]),
    List.nil_append]
  unfold deflatten
  rw [List.foldl_map]
  have hext :
      List.foldl
          (fun r (pv : List Str × SecretValue) =>
            rearmTree r (splitSep (([] : Str) ++ joinSep pv.1)) pv.2) []
          (leafPaths l) =
        List.foldl (fun r pv => rearmTree r pv.1 pv.2) [] (leafPaths l) := by
    apply List.foldl_ext
    intro b pv hpv
    rw [List.nil_append, splitSep_joinSep pv.1 (paths_good l h pv hpv)]
  rw [hext, ← rearmFold, rearmFold_leafPaths l [] h (by simp [keysOf_nil]),
    List.nil_append]

/-! ### The hypotheses of the round-trip claim as stated, and empty mappings -/

mutual

/-- Value side of the stated round-trip hypothesis: no array occurring
anywhere has a mapping among its elements. -/
def noArrMapsV : SecretValue → Bool
  | .arr es => noArrMapsL es
  | .obj fs => noArrMapsF fs
  | _ => true

/-- `noArrMapsV` over the elements of an array: additionally, no element is
itself a mapping. -/
def noArrMapsL : List SecretValue → Bool
  | [] => true
  | e :: rest =>
      (match e with
       | .obj _ => false
       | _ => true) && noArrMapsV e && noArrMapsL rest

/-- `noArrMapsV` over the fields of a mapping. -/
def noArrMapsF : List (Str × SecretValue) → Bool
  | [] => true
  | (_, v) :: rest => noArrMapsV v && noArrMapsF rest

end

mutual

/-- Key side of the stated round-trip hypothesis: no key of any mapping
occurring anywhere contains a literal `--`. -/
def noSepKeysV : SecretValue → Bool
  | .arr es => noSepKeysL es
  | .obj fs => noSepKeysF fs
  | _ => true

/-- `noSepKeysV` over array elements. -/
def noSepKeysL : List SecretValue → Bool
  | [] => true
  | e :: rest => noSepKeysV e && noSepKeysL rest

/-- `noSepKeysV` over mapping fields. -/
def noSepKeysF : List (Str × SecretValue) → Bool
  | [] => true
  | (k, v) :: rest => noSepB k && noSepKeysV v && noSepKeysF rest

end

mutual

/-- `true` iff the value is a mapping that is empty or transitively holds an
empty mapping in a field (positions `flatten` traverses; array contents are
opaque to `flatten` and are not inspected). -/
def valHasEmptyObj : SecretValue → Bool
  | .obj fs => fs.isEmpty || hasEmptyObjF fs
  | _ => false

/-- `true` iff some key of the structure, at any depth reachable through
mappings, is bound to an empty mapping. -/
def hasEmptyObjF : List (Str × SecretValue) → Bool
  | [] => false
  | (_, v) :: rest => valHasEmptyObj v || hasEmptyObjF rest

end

/-- `true` iff the value is not built by the `obj` constructor. -/
def valNotObj : SecretValue → Bool
  | .obj _ => false
  | _ => true

theorem valHasEmptyObj_eq_false_of_not_obj {v : SecretValue}
    (h : valNotObj v = true) : valHasEmptyObj v = false := by
  cases v <;> simp_all [valNotObj, valHasEmptyObj]

/-- Every value stored in a `flatten` result is a scalar, `null` or an array,
never a mapping. -/
theorem flatten_values_not_obj :
    ∀ (l : List (Str × SecretValue)) (ns : Str) (acc : List (Str × SecretValue)),
      (∀ p ∈ acc, valNotObj p.2 = true) →
      ∀ p ∈ flattenAux ns acc l, valNotObj p.2 = true
  | [], ns, acc, hacc, p, hp => by
      rw [show flattenAux ns acc [] = acc from by simp [flattenAux]] at hp
      exact hacc p hp
  | (k, v) :: rest, ns, acc, hacc, p, hp => by
      by_cases hobj : ∃ fields, v = SecretValue.obj fields
      · obtain ⟨fields, rfl⟩ := hobj
        rw [show flattenAux ns acc ((k, SecretValue.obj fields) :: rest) =
            flattenAux ns
              (objAssign acc (flattenAux (ns ++ k ++ sepStr) [] fields)) rest
          from by simp [flattenAux]] at hp
        refine flatten_values_not_obj rest ns _ ?_ p hp
        intro q hq
        rcases mem_of_mem_objAssign hq with hq' | hq'
        · exact hacc q hq'
        · exact flatten_values_not_obj fields (ns ++ k ++ sepStr) []
            (by intro r hr; simp at hr) q hq'
      · have hne : ∀ fields, v ≠ SecretValue.obj fields :=
          fun fields h => hobj ⟨fields, h⟩
        have hstep : flattenAux ns acc ((k, v) :: rest) =
            flattenAux ns (setKey acc (ns ++ k) v) rest := by
          cases v <;> first
            | exact absurd rfl (hne _)
            | simp [flattenAux]
        rw [hstep] at hp
        refine flatten_values_not_obj rest ns _ ?_ p hp
        intro q hq
        rcases mem_of_mem_setKey hq with hq' | hq'
        · exact hacc q hq'
        · rw [hq']
          cases v <;> first
            | exact absurd rfl (hne _)
            | simp [valNotObj]
termination_by l _ _ => sizeOf l

theorem hasEmptyObjF_setKey {m : List (Str × SecretValue)} {k : Str}
    {v : SecretValue} (hm : hasEmptyObjF m = false)
    (hv : valHasEmptyObj v = false) : hasEmptyObjF (setKey m k v) = false := by
  induction m with
  | nil => simp [setKey, hasEmptyObjF, hv]
  | cons p rest ih =>
      obtain ⟨k', v'⟩ := p
      rw [show hasEmptyObjF ((k', v') :: rest) =
          (valHasEmptyObj v' || hasEmptyObjF rest) from by simp [hasEmptyObjF]] at hm
      simp only [Bool.or_eq_false_iff] at hm
      by_cases h : k' = k
      · simp [setKey, h, hasEmptyObjF, hv, hm.2]
      · simp [setKey, h, hasEmptyObjF, hm.1, ih hm.2]

theorem lookupKey_no_empty {m : List (Str × SecretValue)} {k : Str}
    {w : SecretValue} (hm : hasEmptyObjF m = false)
    (hl : lookupKey m k = some w) : valHasEmptyObj w = false := by
  induction m with
  | nil => simp [lookupKey] at hl
  | cons p rest ih =>
      obtain ⟨k', v'⟩ := p
      rw [show hasEmptyObjF ((k', v') :: rest) =
          (valHasEmptyObj v' || hasEmptyObjF rest) from by simp [hasEmptyObjF]] at hm
      simp only [Bool.or_eq_false_iff] at hm
      by_cases h : k' = k
      · simp only [lookupKey, if_pos h, Option.some.injEq] at hl
        exact hl ▸ hm.1
      · simp only [lookupKey, if_neg h] at hl
        exact ih hm.2 hl

theorem rearmTree_cons_ne_nil {g : List (Str × SecretValue)} {m : Str}
    {ms : List Str} {v : SecretValue} : rearmTree g (m :: ms) v ≠ [] := by
  cases ms with
  | nil => exact setKey_ne_nil
  | cons m2 ms' =>
      rw [show rearmTree g (m :: m2 :: ms') v =
          (match lookupKey g m with
           | some (.obj fields) =>
               setKey g m (.obj (rearmTree fields (m2 :: ms') v))
           | some c =>
               if jsFalsy c then setKey g m (.obj (rearmTree [] (m2 :: ms') v))
               else g
           | none => setKey g m (.obj (rearmTree [] (m2 :: ms') v))
          ) from by simp [rearmTree]]
      cases hl : lookupKey g m with
      | none => exact setKey_ne_nil
      | some c =>
          cases c with
          | obj fields => exact setKey_ne_nil
          | null =>
              by_cases hf : jsFalsy SecretValue.null <;> simp [hf, setKey_ne_nil]
              · cases g with
                | nil => simp [lookupKey] at hl
                | cons q rest => simp
          | str s =>
              by_cases hf : jsFalsy (SecretValue.str s) <;> simp [hf, setKey_ne_nil]
              · cases g with
                | nil => simp [lookupKey] at hl
                | cons q rest => simp
          | num n =>
              by_cases hf : jsFalsy (SecretValue.num n) <;> simp [hf, setKey_ne_nil]
              · cases g with
                | nil => simp [lookupKey] at hl
                | cons q rest => simp
          | bool b =>
              by_cases hf : jsFalsy (SecretValue.bool b) <;> simp [hf, setKey_ne_nil]
              · cases g with
                | nil => simp [lookupKey] at hl
                | cons q rest => simp
          | arr es =>
              by_cases hf : jsFalsy (SecretValue.arr es) <;> simp [hf, setKey_ne_nil]
              · cases g with
                | nil => simp [lookupKey] at hl
                | cons q rest => simp

/-- Inserting a non-mapping value with `rearmTree` never creates an empty
mapping field. -/
theorem rearmTree_no_empty :
    ∀ (ms : List Str) (restored : List (Str × SecretValue)) (v : SecretValue),
      hasEmptyObjF restored = false → valNotObj v = true →
      hasEmptyObjF (rearmTree restored ms v) = false
  | [], restored, v, hr, _ => hr
  | [k], restored, v, hr, hv => by
      rw [show rearmTree restored [k] v = setKey restored k v from by
        simp [rearmTree]]
      exact hasEmptyObjF_setKey hr (valHasEmptyObj_eq_false_of_not_obj hv)
  | k :: m :: rest, restored, v, hr, hv => by
      have hrec :
          ∀ g : List (Str × SecretValue), hasEmptyObjF g = false →
            valHasEmptyObj (.obj (rearmTree g (m :: rest) v)) = false := by
        intro g hg
        have h1 := rearmTree_no_empty (m :: rest) g v hg hv
        have h2 : (rearmTree g (m :: rest) v).isEmpty = false := by
          cases hnil : rearmTree g (m :: rest) v with
          | nil => exact absurd hnil rearmTree_cons_ne_nil
          | cons a l => rfl
        simp [valHasEmptyObj, h1, h2]
      cases hl : lookupKey restored k with
      | none =>
          rw [rearmTree_cons_none hl]
          exact hasEmptyObjF_setKey hr (hrec [] (by simp [hasEmptyObjF]))
      | some c =>
          cases c with
          | obj fields =>
              rw [rearmTree_cons_obj hl]
              have hfe := lookupKey_no_empty hr hl
              rw [show valHasEmptyObj (SecretValue.obj fields) =
                  (fields.isEmpty || hasEmptyObjF fields) from by
                simp [valHasEmptyObj]] at hfe
              simp only [Bool.or_eq_false_iff] at hfe
              exact hasEmptyObjF_setKey hr (hrec fields hfe.2)
          | null =>
              rw [show rearmTree restored (k :: m :: rest) v =
                  if jsFalsy SecretValue.null then
                    setKey restored k (.obj (rearmTree [] (m :: rest) v))
                  else restored from by simp [rearmTree, hl]]
              by_cases hf : jsFalsy SecretValue.null = true
              · rw [if_pos hf]
                exact hasEmptyObjF_setKey hr (hrec [] (by simp [hasEmptyObjF]))
              · rw [if_neg hf]; exact hr
          | str s =>
              rw [show rearmTree restored (k :: m :: rest) v =
                  if jsFalsy (SecretValue.str s) then
                    setKey restored k (.obj (rearmTree [] (m :: rest) v))
                  else restored from by simp [rearmTree, hl]]
              by_cases hf : jsFalsy (SecretValue.str s) = true
              · rw [if_pos hf]
                exact hasEmptyObjF_setKey hr (hrec [] (by simp [hasEmptyObjF]))
              · rw [if_neg hf]; exact hr
          | num n =>
              rw [show rearmTree restored (k :: m :: rest) v =
                  if jsFalsy (SecretValue.num n) then
                    setKey restored k (.obj (rearmTree [] (m :: rest) v))
                  else restored from by simp [rearmTree, hl]]
              by_cases hf : jsFalsy (SecretValue.num n) = true
              · rw [if_pos hf]
                exact hasEmptyObjF_setKey hr (hrec [] (by simp [hasEmptyObjF]))
              · rw [if_neg hf]; exact hr
          | bool b =>
              rw [show rearmTree restored (k :: m :: rest) v =
                  if jsFalsy (SecretValue.bool b) then
                    setKey restored k (.obj (rearmTree [] (m :: rest) v))
                  else restored from by simp [rearmTree, hl]]
              by_cases hf : jsFalsy (SecretValue.bool b) = true
              · rw [if_pos hf]
                exact hasEmptyObjF_setKey hr (hrec [] (by simp [hasEmptyObjF]))
              · rw [if_neg hf]; exact hr
          | arr es =>
              rw [show rearmTree restored (k :: m :: rest) v =
                  if jsFalsy (SecretValue.arr es) then
                    setKey restored k (.obj (rearmTree [] (m :: rest) v))
                  else restored from by simp [rearmTree, hl]]
              by_cases hf : jsFalsy (SecretValue.arr es) = true
              · rw [if_pos hf]
                exact hasEmptyObjF_setKey hr (hrec [] (by simp [hasEmptyObjF]))
              · rw [if_neg hf]; exact hr

/-- `deflatten` of a flat map whose values are not mappings never contains a
key bound to an empty mapping at any depth. -/
theorem deflatten_no_empty {flat : List (Str × SecretValue)}
    (hv : ∀ p ∈ flat, valNotObj p.2 = true) :
    hasEmptyObjF (deflatten flat) = false := by
  have hstep :
      ∀ (fl : List (Str × SecretValue)) (start : List (Str × SecretValue)),
        (∀ p ∈ fl, valNotObj p.2 = true) →
        hasEmptyObjF start = false →
        hasEmptyObjF
          (fl.foldl (fun r kv => rearmTree r (splitSep kv.1) kv.2) start) = false := by
    intro fl
    induction fl with
    | nil => intro start _ hs; exact hs
    | cons p rest ih =>
        intro start hp hs
        rw [List.foldl_cons]
        exact ih _ (fun q hq => hp q (List.mem_cons_of_mem _ hq))
          (rearmTree_no_empty (splitSep p.1) start p.2 hs
            (hp p (List.mem_cons_self _ _)))
  exact hstep flat [] hv (by simp [hasEmptyObjF])

/-! ### Naming engine and vault facade -/

/-- Namespace configuration handed to the `AzureKeyVault` constructor.
`group` and `env` are optional; `sharedGroup` defaults to `SHARED` at the
construction site. -/
structure AkvConfig where
  project : Str
  group : Option Str
  env : Option Str
  sharedGroup : Str

/-- The namespace fragments `env ? "-" + env : ""` and
`group ? "-" + group : ""` of the constructor (empty strings are falsy). -/
def nsPart : Option Str → Str
  | none => []
  | some s => if s.isEmpty then [] else '-' :: s

/-- `this.prefix = project + nsGroup + nsEnv` computed by the constructor. -/
def pfxScoped (cfg : AkvConfig) : Str :=
  cfg.project ++ nsPart cfg.group ++ nsPart cfg.env

/-- `this.prefixShared = project + nsEnv` computed by the constructor. -/
def pfxShared (cfg : AkvConfig) : Str :=
  cfg.project ++ nsPart cfg.env

/-- `secretName(key, isShared)`: pick the shared or scoped secret name
prefix, join it to the key with a dash, then collapse underscore/space runs
to a dash, turn each colon into a double dash, drop every dollar sign, and
lower-case the result. -/
def secretName (cfg : AkvConfig) (key : Str) (isShared : Bool) : Str :=
  let pfx := if isShared then pfxShared cfg else pfxScoped cfg
  lowerStr (stripDollars (replaceColons (collapseRuns (pfx ++ '-' :: key))))

/-- `const isShared = key.includes('$')` — the classification used by `get`,
`getInfo`, `delete`, `purge` and `restore`. -/
def isSharedByScan (key : Str) : Bool := containsDollar key

/-- The classification used by `set`: the first character of the last
section of the key (split on `:` or `--`, `sections.at(-1) ?? ''`) is `$`. -/
def isSharedBySet (key : Str) : Bool :=
  decide ((((splitSections key).getLast?).getD []).head? = some '$')

/-- `key.split(':')` on the logical path separator only (for stating the
specification's segment-wise predicate). -/
def splitColon : Str → List Str
  | [] => [[]]
  | c :: rest =>
      if c = ':' then [] :: splitColon rest
      else
        match splitColon rest with
        | p :: ps => (c :: p) :: ps
        | [] => [[c]]

/-- The specification's classification: some path segment of the logical key
begins with `$`. -/
def someSegStartsDollar (key : Str) : Bool :=
  (splitColon key).any (fun s => decide (s.head? = some '$'))

/-- A secret as the backend returns it from `getSecret`: its string value and
its metadata tags (`tags = {}` when absent, hence the plain list). -/
structure StoredSecret where
  value : Str
  tags : List (Str × Str)

/-- The metadata tag key `serialized`. -/
def serializedTag : Str := "serialized".toList

/-- `get(key, serialized)`: compute the storage id from the include-scan
classification, fetch, and decode.  The caller's `serialized` parameter is
shadowed in the source by the destructured tag of the same name, so the model
receives `serializedHint` but never reads it.  `JSON.parse` is the abstract
`parse` argument; the whole body is inside `try ... catch { return null }`,
so a backend failure and a parse failure both come out as `null` (modelled by
`SecretValue.null`). -/
def getOp (cfg : AkvConfig) (backend : Str → Except Unit StoredSecret)
    (parse : Str → Except Unit SecretValue) (key : Str)
    (serializedHint : Bool) : SecretValue :=
  match backend (secretName cfg key (isSharedByScan key)) with
  | .error _ => .null
  | .ok s =>
      if lookupKey s.tags serializedTag = some ['1'] ∧ s.value ≠ [] then
        match parse s.value with
        | .ok v => v
        | .error _ => .null
      else .str s.value

/-- `getInfo(key)`: same storage id computation as `get`, raw backend
response, no decoding and no catch (not-found propagates). -/
def getInfoOp (cfg : AkvConfig) (backend : Str → Except Unit StoredSecret)
    (key : Str) : Except Unit StoredSecret :=
  backend (secretName cfg key (isSharedByScan key))

/-- `typeof value !== 'string'`. -/
def isNotStr : SecretValue → Bool
  | .str _ => false
  | _ => true

/-- The record `set(key, value)` hands to `setSecret`: storage id, string
payload and metadata tags.  `JSON.stringify` is the abstract `stringify`
argument. -/
structure WriteRecord where
  id : Str
  payload : Str
  nameTag : Str
  pathTag : Str
  envTag : Str
  projectTag : Str
  groupTag : Str
  serializedFlag : Str
deriving DecidableEq

/-- `set(key, value)`: split the key into sections on `:` or `--`, derive
`path` (all but the last section, joined with `--`) and `name` (the last
section), classify shared by `name[0] === '$'`, serialize non-strings, and
build the write. -/
def setOp (cfg : AkvConfig) (stringify : SecretValue → Str) (key : Str)
    (value : SecretValue) : WriteRecord :=
  let sections := splitSections key
  let path := joinSep sections.dropLast
  let name := (sections.getLast?).getD []
  let isShared : Bool := decide (name.head? = some '$')
  { id := secretName cfg key isShared
    payload :=
      match value with
      | .str s => s
      | v => stringify v
    nameTag := name
    pathTag := path
    envTag := cfg.env.getD []
    projectTag := cfg.project
    groupTag := (if isShared then some cfg.sharedGroup else cfg.group).getD []
    serializedFlag := if isNotStr value then ['1'] else ['0'] }

/-- Outcome observed by a caller awaiting `delete`, `purge` or `restore`. -/
inductive OpOutcome where
  | resolved
  | softFailure
  | raised
deriving DecidableEq

/-- How the backend reports the state of the requested transition for a
given storage id: success, a synchronous throw, or a returned promise that
rejects (the SDK's asynchronous methods report missing secrets this way). -/
inductive FailMode where
  | ok
  | syncThrow
  | asyncReject
deriving DecidableEq

/-- `delete(key)`: the backend call is awaited inside `try/catch`, so both a
synchronous throw and a promise rejection are caught and become the soft
failure payload. -/
def deleteOp (cfg : AkvConfig) (mode : Str → FailMode) (key : Str) : OpOutcome :=
  match mode (secretName cfg key (isSharedByScan key)) with
  | .ok => .resolved
  | .syncThrow => .softFailure
  | .asyncReject => .softFailure

/-- `restore(key)`: like `delete`, the recover call is awaited inside the
`try/catch`, so both failure shapes are caught. -/
def restoreOp (cfg : AkvConfig) (mode : Str → FailMode) (key : Str) : OpOutcome :=
  match mode (secretName cfg key (isSharedByScan key)) with
  | .ok => .resolved
  | .syncThrow => .softFailure
  | .asyncReject => .softFailure

/-- `purge(key)`: returns `this.client.purgeDeletedSecret(...)` from inside
`try/catch` without awaiting it.  The catch can intercept only a synchronous
throw; a rejection of the returned promise reaches the caller. -/
def purgeOp (cfg : AkvConfig) (mode : Str → FailMode) (key : Str) : OpOutcome :=
  match mode (secretName cfg key (isSharedByScan key)) with
  | .ok => .resolved
  | .syncThrow => .softFailure
  | .asyncReject => .raised

/-- `Array.isArray(secret)`. -/
def isArrB : SecretValue → Bool
  | .arr _ => true
  | _ => false

/-- The nullish test of `value ?? secrets[key]` (`get` resolves to a value or
to `null`, never to `undefined`). -/
def isNullV : SecretValue → Bool
  | .null => true
  | _ => false

/-- Whether `getFor` issues a remote fetch for a flat entry: always under
`override`; otherwise exactly when the default is falsy or an empty array
(`!secret || (isArray && secret?.length === 0)`). -/
def fetchesRemote (override : Bool) (secret : SecretValue) : Bool :=
  override || jsFalsy secret ||
    (match secret with
     | .arr [] => true
     | _ => false)

/-- The value one flat entry of `getFor` holds after the fetch phase and the
`value ?? secrets[key]` fallback: the fetched value when a fetch was issued
and produced something non-null, the original default otherwise. -/
def resolveKey (cfg : AkvConfig) (backend : Str → Except Unit StoredSecret)
    (parse : Str → Except Unit SecretValue) (override : Bool)
    (key : Str) (secret : SecretValue) : SecretValue :=
  if fetchesRemote override secret then
    let fetched := getOp cfg backend parse key (isArrB secret)
    if isNullV fetched then secret else fetched
  else secret

/-- `getFor(secrets, override)`: flatten the defaults, resolve every flat
entry (fetches are issued and awaited per key; `get` never rejects, so the
`try/catch` around the await is inert), and deflatten the result.  The flat
keys are pairwise distinct (`flatten_keysOf_nodup`), so the source's
in-place `secrets[key] = value ?? secrets[key]` is the entrywise map
below. -/
def getForOp (cfg : AkvConfig) (backend : Str → Except Unit StoredSecret)
    (parse : Str → Except Unit SecretValue)
    (secrets : List (Str × SecretValue)) (override : Bool) :
    List (Str × SecretValue) :=
  deflatten ((flatten secrets []).map
    (fun kv => (kv.1, resolveKey cfg backend parse override kv.1 kv.2)))

/-- `setAll(secrets)` with its write results accumulator: one `set` per flat
entry, strictly in order, each awaited before the next; `fails` tells which
storage ids the backend rejects, and the first rejection aborts the
remaining sequence (there is no catch).  Returns the performed writes and
the rejected id, if any. -/
def setAllAux (cfg : AkvConfig) (stringify : SecretValue → Str)
    (fails : Str → Bool) :
    List (Str × SecretValue) → List WriteRecord →
    List WriteRecord × Option Str
  | [], acc => (acc, none)
  | (k, v) :: rest, acc =>
      let w := setOp cfg stringify k v
      if fails w.id then (acc, some w.id)
      else setAllAux cfg stringify fails rest (acc ++ [w])

/-- `setAll(secrets)` from the empty accumulator on the flattened input. -/
def setAllOp (cfg : AkvConfig) (stringify : SecretValue → Str)
    (fails : Str → Bool) (secrets : List (Str × SecretValue)) :
    List WriteRecord × Option Str :=
  setAllAux cfg stringify fails (flatten secrets []) []

/-- Integer value of a digit string. -/
def natOfDigits (s : Str) : Int :=
  s.foldl (fun acc c => acc * 10 + (Int.ofNat (c.toNat - 48))) 0

/-- Modelled from the spec: the `JSON.parse` builtin of the Secret Value
Codec (spec section 4.3) is external to this repository; this executable model
covers the fragment exercised here — `null`, `true`, `false`, digit-only
numerals and double-quoted strings without escapes or inner quotes.  Every
other input is a parse error. -/
def jsonParseModel (s : Str) : Except Unit SecretValue :=
  if s = "null".toList then .ok .null
  else if s = "true".toList then .ok (.bool true)
  else if s = "false".toList then .ok (.bool false)
  else if s ≠ [] ∧ s.all Char.isDigit then .ok (.num (natOfDigits s))
  else
    match s with
    | '"' :: rest =>
        if rest ≠ [] ∧ rest.getLast? = some '"' ∧ rest.dropLast.all (fun c => c != '"')
        then .ok (.str rest.dropLast)
        else .error ()
    | _ => .error ()

/-! ### Distinctness of flat keys -/

theorem mem_keysOf_setKey {α : Type} {m : List (Str × α)} {k a : Str} {v : α} :
    a ∈ keysOf (setKey m k v) ↔ a ∈ keysOf m ∨ a = k := by
  induction m with
  | nil => simp [setKey, keysOf]
  | cons p rest ih =>
      obtain ⟨k', v'⟩ := p
      by_cases h : k' = k
      · subst h
        simp [setKey, keysOf_cons, or_assoc, or_comm]
      · simp [setKey, h, keysOf_cons, ih, or_assoc]

theorem keysOf_setKey_nodup {α : Type} {m : List (Str × α)} {k : Str} {v : α}
    (h : (keysOf m).Nodup) : (keysOf (setKey m k v)).Nodup := by
  induction m with
  | nil => simp [setKey, keysOf]
  | cons p rest ih =>
      obtain ⟨k', v'⟩ := p
      rw [keysOf_cons, List.nodup_cons] at h
      by_cases hk : k' = k
      · subst hk
        simpa [setKey, keysOf_cons, List.nodup_cons] using h
      · rw [show setKey ((k', v') :: rest) k v = (k', v') :: setKey rest k v from by
          simp [setKey, hk]]
        rw [keysOf_cons, List.nodup_cons]
        refine ⟨?_, ih h.2⟩
        rw [mem_keysOf_setKey]
        rintro (hmem | rfl)
        · exact h.1 hmem
        · exact hk rfl

theorem keysOf_objAssign_nodup {α : Type} {dst src : List (Str × α)}
    (h : (keysOf dst).Nodup) : (keysOf (objAssign dst src)).Nodup := by
  induction src generalizing dst with
  | nil => exact h
  | cons p src' ih =>
      obtain ⟨k, v⟩ := p
      rw [objAssign_cons]
      exact ih (keysOf_setKey_nodup h)

/-- The flat map `flatten` produces always has pairwise-distinct keys (so
per-key updates of it are entrywise). -/
theorem flatten_keysOf_nodup :
    ∀ (l : List (Str × SecretValue)) (ns : Str) (acc : List (Str × SecretValue)),
      (keysOf acc).Nodup → (keysOf (flattenAux ns acc l)).Nodup
  | [], ns, acc, h => by
      rw [show flattenAux ns acc [] = acc from by simp [flattenAux]]
      exact h
  | (k, v) :: rest, ns, acc, h => by
      by_cases hobj : ∃ fields, v = SecretValue.obj fields
      · obtain ⟨fields, rfl⟩ := hobj
        rw [show flattenAux ns acc ((k, SecretValue.obj fields) :: rest) =
            flattenAux ns
              (objAssign acc (flattenAux (ns ++ k ++ sepStr) [] fields)) rest
          from by simp [flattenAux]]
        exact flatten_keysOf_nodup rest ns _ (keysOf_objAssign_nodup h)
      · have hne : ∀ fields, v ≠ SecretValue.obj fields :=
          fun fields hh => hobj ⟨fields, hh⟩
        rw [show flattenAux ns acc ((k, v) :: rest) =
            flattenAux ns (setKey acc (ns ++ k) v) rest from by
          cases v <;> first
            | exact absurd rfl (hne _)
            | simp [flattenAux]]
        exact flatten_keysOf_nodup rest ns _ (keysOf_setKey_nodup h)
termination_by l _ _ => sizeOf l

theorem containsDollar_iff {s : Str} : containsDollar s = true ↔ '$' ∈ s := by
  induction s with
  | nil => simp [containsDollar]
  | cons c rest ih =>
      by_cases h : c = '$'
      · subst h; simp [containsDollar]
      · rw [show containsDollar (c :: rest) = containsDollar rest from by
          simp [containsDollar, List.contains, List.elem, beq_false_of_ne
            (fun he : '$' = c => h he.symm)]]
        rw [List.mem_cons, or_iff_right (fun he : '$' = c => h he.symm)]
        exact ih

/-! ### Concrete namespaces and backends used at ground instances -/

/-- Namespace `{project: "p", group: "g", env: "e"}`. -/
def cfgPGE : AkvConfig := ⟨"p".toList, some "g".toList, some "e".toList, "SHARED".toList⟩

/-- Namespace `{project: "p", env: "e"}` (no group). -/
def cfgPE : AkvConfig := ⟨"p".toList, none, some "e".toList, "SHARED".toList⟩

/-- A backend holding exactly one secret, at the scoped id of key `k` under
`cfgPGE`, with value `1` and no tags at all. -/
def backendNoTag : Str → Except Unit StoredSecret := fun id =>
  if id = "p-g-e-k".toList then .ok ⟨"1".toList, []⟩ else .error ()

/-- A backend holding exactly one secret, at the scoped id of key `k` under
`cfgPGE`, flagged serialized but with a value that is not valid JSON. -/
def backendBadJson : Str → Except Unit StoredSecret := fun id =>
  if id = "p-g-e-k".toList then .ok ⟨"oops".toList, [(serializedTag, ['1'])]⟩
  else .error ()

/-- A leaf entry of a structure is a leaf path of length one. -/
theorem mem_leafPaths_of_mem :
    ∀ (l : List (Str × SecretValue)) (k : Str) (v : SecretValue),
      (k, v) ∈ l → valNotObj v = true → ([k], v) ∈ leafPaths l
  | [], _, _, hmem, _ => by simp at hmem
  | (k', v') :: rest, k, v, hmem, hv => by
      rcases List.mem_cons.mp hmem with heq | hmem'
      · injection heq with h1 h2
        subst h1; subst h2
        have hne : ∀ fields, v ≠ SecretValue.obj fields := by
          intro fields hq
          rw [hq] at hv
          simp [valNotObj] at hv
        rw [leafPaths_cons_of_ne_obj hne]
        exact List.mem_cons_self _ _
      · by_cases hobj : ∃ fields, v' = SecretValue.obj fields
        · obtain ⟨fields, rfl⟩ := hobj
          rw [leafPaths_cons_obj]
          exact List.mem_append_right _ (mem_leafPaths_of_mem rest k v hmem' hv)
        · rw [leafPaths_cons_of_ne_obj (fun fields h => hobj ⟨fields, h⟩)]
          exact List.mem_cons_of_mem _ (mem_leafPaths_of_mem rest k v hmem' hv)
termination_by l _ _ => sizeOf l

/-! ### The claims -/

/-- C1, counterexample: the round-trip claim fails as stated.  Both inputs
satisfy the stated hypotheses (no array with mapping elements, no literal
`--` in any key), yet `{a: {}}` loses its key entirely, and
`{"a-": {b: "v"}}` comes back as `{a: {"-b": "v"}}` because the flat key
`a---b` splits one dash early. -/
theorem C1_roundtrip_counterexample :
    (noArrMapsF [("a".toList, SecretValue.obj [])] = true ∧
     noSepKeysF [("a".toList, SecretValue.obj [])] = true ∧
     deflatten (flatten [("a".toList, SecretValue.obj [])] []) ≠
       [("a".toList, SecretValue.obj [])]) ∧
    (noArrMapsF
        [("a-".toList, SecretValue.obj [("b".toList, SecretValue.str "v".toList)])] = true ∧
     noSepKeysF
        [("a-".toList, SecretValue.obj [("b".toList, SecretValue.str "v".toList)])] = true ∧
     deflatten (flatten
        [("a-".toList, SecretValue.obj [("b".toList, SecretValue.str "v".toList)])] []) ≠
       [("a-".toList, SecretValue.obj [("b".toList, SecretValue.str "v".toList)])]) := by
  refine ⟨⟨?_, ?_, ?_⟩, ?_, ?_, ?_⟩
  · simp [noArrMapsF, noArrMapsV]
  · simp [noSepKeysF, noSepKeysV, noSepB, isSepAt]
  · rw [show deflatten (flatten [("a".toList, SecretValue.obj [])] []) = [] from by
      simp [flatten, flattenAux, objAssign, deflatten]]
    simp
  · simp [noArrMapsF, noArrMapsV, noArrMapsL]
  · simp [noSepKeysF, noSepKeysV, noSepKeysL, noSepB, isSepAt]
  · rw [show deflatten (flatten
        [("a-".toList, SecretValue.obj [("b".toList, SecretValue.str "v".toList)])] []) =
        [("a".toList, SecretValue.obj [("-b".toList, SecretValue.str "v".toList)])] from by
      simp [flatten, flattenAux, objAssign, deflatten, sepStr, setKey, splitSep,
        isSepAt, rearmTree, lookupKey]]
    simp

/-- C1, amended: `deflatten (flatten x)` deep-equals `x` for every Nested
Structure with pairwise-distinct keys at each mapping level, no array with
mapping elements, no literal `--` in any key, no empty mapping value, and no
mapping-valued key that ends in a dash.  The last two conditions are the ones
the counterexamples force; distinct keys per level are the data model's own
well-formedness (a JavaScript object cannot repeat a key). -/
theorem C1_roundtrip_amended (l : List (Str × SecretValue))
    (harr : noArrMapsF l = true) (hsep : noSepKeysF l = true)
    (hgood : goodFields l = true) :
    deflatten (flatten l []) = l :=
  deflatten_flatten hgood

/-- Ground instance of the amended round trip at
`{a: {b: "v"}, c: [1, "x"], d: null}`. -/
theorem C1_roundtrip_amended_witness :
    noArrMapsF
        [("a".toList, SecretValue.obj [("b".toList, SecretValue.str "v".toList)]),
         ("c".toList, SecretValue.arr [SecretValue.num 1, SecretValue.str "x".toList]),
         ("d".toList, SecretValue.null)] = true ∧
    noSepKeysF
        [("a".toList, SecretValue.obj [("b".toList, SecretValue.str "v".toList)]),
         ("c".toList, SecretValue.arr [SecretValue.num 1, SecretValue.str "x".toList]),
         ("d".toList, SecretValue.null)] = true ∧
    goodFields
        [("a".toList, SecretValue.obj [("b".toList, SecretValue.str "v".toList)]),
         ("c".toList, SecretValue.arr [SecretValue.num 1, SecretValue.str "x".toList]),
         ("d".toList, SecretValue.null)] = true ∧
    deflatten (flatten
        [("a".toList, SecretValue.obj [("b".toList, SecretValue.str "v".toList)]),
         ("c".toList, SecretValue.arr [SecretValue.num 1, SecretValue.str "x".toList]),
         ("d".toList, SecretValue.null)] []) =
      [("a".toList, SecretValue.obj [("b".toList, SecretValue.str "v".toList)]),
       ("c".toList, SecretValue.arr [SecretValue.num 1, SecretValue.str "x".toList]),
       ("d".toList, SecretValue.null)] := by
  refine ⟨?_, ?_, ?_, ?_⟩
  · simp [noArrMapsF, noArrMapsV, noArrMapsL]
  · simp [noSepKeysF, noSepKeysV, noSepKeysL, noSepB, isSepAt]
  · simp [goodFields, noSepB, isSepAt, endsWithDash, keysOf]
  · apply C1_roundtrip_amended
    · simp [noArrMapsF, noArrMapsV, noArrMapsL]
    · simp [noSepKeysF, noSepKeysV, noSepKeysL, noSepB, isSepAt]
    · simp [goodFields, noSepB, isSepAt, endsWithDash, keysOf]

/-- C2: `getFor` resolution.  (1) `getFor` deflattens the entrywise
resolution of the flattened defaults.  (2) Under `override = true` every key
is fetched and the remote value replaces the default unless it is `null`.
(3) Under `override = false` a falsy or empty-array default is fetched the
same way.  (4) A truthy, non-empty-array default is kept as is, independent
of the backend — no fetch can influence it. -/
theorem C2_getFor_override_semantics :
    (∀ cfg backend parse secrets override,
      getForOp cfg backend parse secrets override =
        deflatten ((flatten secrets []).map
          (fun kv => (kv.1, resolveKey cfg backend parse override kv.1 kv.2)))) ∧
    (∀ cfg backend parse key v,
      resolveKey cfg backend parse true key v =
        (if isNullV (getOp cfg backend parse key (isArrB v)) then v
         else getOp cfg backend parse key (isArrB v))) ∧
    (∀ cfg backend parse key v, jsFalsy v = true ∨ v = .arr [] →
      resolveKey cfg backend parse false key v =
        (if isNullV (getOp cfg backend parse key (isArrB v)) then v
         else getOp cfg backend parse key (isArrB v))) ∧
    (∀ cfg backend backend' parse parse' key v,
      jsFalsy v = false → v ≠ .arr [] →
      resolveKey cfg backend parse false key v = v ∧
      resolveKey cfg backend parse false key v =
        resolveKey cfg backend' parse' false key v) := by
  refine ⟨fun _ _ _ _ _ => rfl, ?_, ?_, ?_⟩
  · intro cfg backend parse key v
    simp [resolveKey, fetchesRemote]
  · intro cfg backend parse key v hv
    rcases hv with hv | rfl
    · simp [resolveKey, fetchesRemote, hv]
    · simp [resolveKey, fetchesRemote]
  · intro cfg backend backend' parse parse' key v hfalsy hne
    have hf : fetchesRemote false v = false := by
      cases v with
      | arr es =>
          cases es with
          | nil => exact absurd rfl hne
          | cons e es' => simp [fetchesRemote, jsFalsy]
      | null => simp [fetchesRemote, hfalsy]
      | str s => simp [fetchesRemote, hfalsy]
      | num n => simp [fetchesRemote, hfalsy]
      | bool b => simp [fetchesRemote, hfalsy]
      | obj fs => simp [fetchesRemote, hfalsy]
    exact ⟨by simp [resolveKey, hf], by simp [resolveKey, hf]⟩

/-- Ground instances of the hypotheses-bearing parts of the `getFor`
contract: a `null` default is fetched, a non-empty string default is kept
untouched whatever the backend holds. -/
theorem C2_getFor_override_semantics_witness :
    (resolveKey cfgPGE backendNoTag jsonParseModel false "k".toList .null =
      (if isNullV (getOp cfgPGE backendNoTag jsonParseModel "k".toList
          (isArrB .null)) then .null
       else getOp cfgPGE backendNoTag jsonParseModel "k".toList (isArrB .null))) ∧
    resolveKey cfgPGE backendNoTag jsonParseModel false "k".toList
        (.str "x".toList) = .str "x".toList :=
  ⟨C2_getFor_override_semantics.2.2.1 cfgPGE backendNoTag jsonParseModel
      "k".toList .null (Or.inl rfl),
   (C2_getFor_override_semantics.2.2.2 cfgPGE backendNoTag backendNoTag
      jsonParseModel jsonParseModel "k".toList (.str "x".toList) rfl
      (by simp)).1⟩

/-- C3: the storage identifier is a total function of the namespace, key and
shared flag — equal to the chosen prefix joined to the key with a dash, with
underscore/space runs collapsed to one dash, colons doubled to `--`, dollar
signs stripped, and the result lower-cased — and on the two namespaces of the
claim it yields `p-g-e-k` and `p-e-k`. -/
theorem C3_secretName_total_pipeline :
    (∀ cfg key isShared,
      secretName cfg key isShared =
        lowerStr (stripDollars (replaceColons (collapseRuns
          ((if isShared then pfxShared cfg else pfxScoped cfg) ++ '-' :: key))))) ∧
    secretName cfgPGE "k".toList false = "p-g-e-k".toList ∧
    secretName cfgPE "k".toList false = "p-e-k".toList :=
  ⟨fun _ _ _ => rfl, rfl, rfl⟩

/-- C4, counterexample: the facade does not classify by "some segment begins
with `$`".  At key `a$b` no segment begins with `$`, yet the scan used by
`get`, `getInfo`, `delete`, `purge` and `restore` (`key.includes('$')`)
classifies it shared; at key `$a:b` the first segment begins with `$`, yet
`set` (which looks only at the last section) classifies it not shared. -/
theorem C4_shared_classification_counterexample :
    (isSharedByScan "a$b".toList = true ∧
     someSegStartsDollar "a$b".toList = false) ∧
    (isSharedBySet "$a:b".toList = false ∧
     someSegStartsDollar "$a:b".toList = true) := by
  refine ⟨⟨by decide, by decide⟩, ?_, by decide⟩
  simp [isSharedBySet, splitSections, isSepAt]

/-- C4, amended: `get`, `getInfo`, `delete`, `purge` and `restore` classify a
key as shared exactly when it contains `$` anywhere, while `set` classifies
it shared exactly when the last section of the key (split on `:` or `--`)
begins with `$`; each operation's storage id is computed from its own
classification. -/
theorem C4_shared_classification_amended :
    ∀ key : Str,
      (isSharedByScan key = true ↔ '$' ∈ key) ∧
      (isSharedBySet key = true ↔
        (((splitSections key).getLast?).getD []).head? = some '$') ∧
      (∀ cfg backend, getInfoOp cfg backend key =
        backend (secretName cfg key (isSharedByScan key))) ∧
      (∀ cfg backend parse hint,
        getOp cfg backend parse key hint =
          match backend (secretName cfg key (isSharedByScan key)) with
          | .error _ => .null
          | .ok s =>
              if lookupKey s.tags serializedTag = some ['1'] ∧ s.value ≠ [] then
                match parse s.value with
                | .ok v => v
                | .error _ => .null
              else .str s.value) ∧
      (∀ cfg mode, deleteOp cfg mode key =
        (match mode (secretName cfg key (isSharedByScan key)) with
         | .ok => OpOutcome.resolved
         | .syncThrow => OpOutcome.softFailure
         | .asyncReject => OpOutcome.softFailure)) ∧
      (∀ cfg mode, purgeOp cfg mode key =
        (match mode (secretName cfg key (isSharedByScan key)) with
         | .ok => OpOutcome.resolved
         | .syncThrow => OpOutcome.softFailure
         | .asyncReject => OpOutcome.raised)) ∧
      (∀ cfg stringify value,
        (setOp cfg stringify key value).id =
          secretName cfg key (isSharedBySet key)) := by
  intro key
  exact ⟨containsDollar_iff, decide_eq_true_iff, fun _ _ => rfl,
    fun _ _ _ _ => rfl, fun _ _ => rfl, fun _ _ => rfl, fun _ _ _ => rfl⟩

/-- C5, counterexample: a stored secret with no `serialized` tag fetched
with hint `true` comes back as the raw string `"1"`, not as its JSON parse
`1`: the hint parameter is shadowed by the destructured tag and never
read. -/
theorem C5_get_hint_counterexample :
    backendNoTag "p-g-e-k".toList = .ok ⟨"1".toList, []⟩ ∧
    getOp cfgPGE backendNoTag jsonParseModel "k".toList true =
      .str "1".toList ∧
    jsonParseModel "1".toList = .ok (.num 1) ∧
    SecretValue.str "1".toList ≠ SecretValue.num 1 :=
  ⟨rfl, rfl, rfl, by simp⟩

/-- C5, amended: the caller-supplied hint is ignored entirely — `get`
decodes by the stored metadata alone: a found secret is parsed exactly when
its `serialized` tag is `'1'` and its value is nonempty, and is returned as
the raw string otherwise. -/
theorem C5_get_decoding_amended :
    ∀ cfg backend parse key h1 h2,
      getOp (cfg : AkvConfig) backend parse key h1 =
        getOp cfg backend parse key h2 ∧
      (∀ s, backend (secretName cfg key (isSharedByScan key)) = .ok s →
        ((lookupKey s.tags serializedTag ≠ some ['1'] ∨ s.value = []) →
          getOp cfg backend parse key h1 = .str s.value) ∧
        (lookupKey s.tags serializedTag = some ['1'] → s.value ≠ [] →
          getOp cfg backend parse key h1 =
            match parse s.value with
            | .ok v => v
            | .error _ => .null)) := by
  intro cfg backend parse key h1 h2
  refine ⟨rfl, ?_⟩
  intro s hs
  constructor
  · intro hcond
    have hneg : ¬(lookupKey s.tags serializedTag = some ['1'] ∧ s.value ≠ []) := by
      rintro ⟨htag, hval⟩
      rcases hcond with hc | hc
      · exact hc htag
      · exact hval hc
    simp only [getOp, hs, if_neg hneg]
  · intro htag hval
    simp only [getOp, hs, if_pos (⟨htag, hval⟩ : _ ∧ _)]

/-- Ground instance: under `cfgPGE` with the tagless backend, `get` with
hint `true` yields the raw string. -/
theorem C5_get_decoding_amended_witness :
    getOp cfgPGE backendNoTag jsonParseModel "k".toList true =
      .str "1".toList :=
  ((C5_get_decoding_amended cfgPGE backendNoTag jsonParseModel "k".toList
      true false).2 ⟨"1".toList, []⟩ rfl).1 (Or.inl (by simp [lookupKey]))

/-- C6, counterexample: a stored value flagged serialized whose payload is
not valid JSON does not surface an error — the parse sits inside the
catch-all, so `get` resolves to `null`, indistinguishable from the
not-found `null` of an empty backend. -/
theorem C6_decode_failure_counterexample :
    backendBadJson "p-g-e-k".toList =
      .ok ⟨"oops".toList, [(serializedTag, ['1'])]⟩ ∧
    jsonParseModel "oops".toList = .error () ∧
    getOp cfgPGE backendBadJson jsonParseModel "k".toList false = .null ∧
    getOp cfgPGE (fun _ => .error ()) jsonParseModel "k".toList false = .null :=
  ⟨rfl, rfl, rfl, rfl⟩

/-- C6, amended: a JSON-decode failure on a value flagged serialized is
swallowed by the catch-all: `get` resolves to `null` for that key, exactly
like not-found, instead of raising. -/
theorem C6_decode_failure_swallowed_amended :
    ∀ cfg backend parse key hint s,
      backend (secretName cfg key (isSharedByScan key)) = .ok s →
      lookupKey s.tags serializedTag = some ['1'] →
      s.value ≠ [] →
      parse s.value = .error () →
      getOp cfg backend parse key hint = .null := by
  intro cfg backend parse key hint s hs htag hval hparse
  simp only [getOp, hs, if_pos (⟨htag, hval⟩ : _ ∧ _), hparse]

/-- Ground instance of the swallowed decode failure. -/
theorem C6_decode_failure_swallowed_amended_witness :
    getOp cfgPGE backendBadJson jsonParseModel "k".toList false = .null :=
  C6_decode_failure_swallowed_amended cfgPGE backendBadJson jsonParseModel
    "k".toList false ⟨"oops".toList, [(serializedTag, ['1'])]⟩ rfl
    (by simp [lookupKey]) (by simp) rfl

/-- C7: arrays are leaves.  Processing an entry whose value is an array (of
any element types and nesting) assigns that very array at the entry's flat
key and moves on — no recursion into it — and on a well-formed tree the
flat result contains the unchanged array at the key's path. -/
theorem C7_arrays_are_leaves :
    (∀ ns acc k es rest,
      flattenAux ns acc ((k, SecretValue.arr es) :: rest) =
        flattenAux ns (setKey acc (ns ++ k) (SecretValue.arr es)) rest) ∧
    (∀ l ns k es, goodFields l = true → (k, SecretValue.arr es) ∈ l →
      (ns ++ k, SecretValue.arr es) ∈ flatten l ns) := by
  constructor
  · intro ns acc k es rest
    simp [flattenAux]
  · intro l ns k es hgood hmem
    rw [flatten, flatten_eq_leafPaths l ns [] hgood (by simp [keysOf_nil]),
      List.nil_append]
    have h1 := mem_leafPaths_of_mem l k (.arr es) hmem (by simp [valNotObj])
    have hj : joinSep [k] = k := by simp [joinSep]
    rw [show ns ++ k = ns ++ joinSep [k] from by rw [hj]]
    exact List.mem_map_of_mem
      (fun pv : List Str × SecretValue => (ns ++ joinSep pv.1, pv.2)) h1

/-- Ground instance: `{a: [[{}], 2]}` keeps its nested array whole as the
single leaf at key `a`. -/
theorem C7_arrays_are_leaves_witness :
    goodFields [("a".toList,
        SecretValue.arr [SecretValue.arr [SecretValue.obj []], SecretValue.num 2])] = true ∧
    (([] : Str) ++ "a".toList,
        SecretValue.arr [SecretValue.arr [SecretValue.obj []], SecretValue.num 2]) ∈
      flatten [("a".toList,
        SecretValue.arr [SecretValue.arr [SecretValue.obj []], SecretValue.num 2])] [] := by
  refine ⟨?_, ?_⟩
  · simp [goodFields, noSepB, keysOf]
  · exact C7_arrays_are_leaves.2 _ [] "a".toList _
      (by simp [goodFields, noSepB, keysOf]) (List.mem_cons_self _ _)

/-- What `setAll`'s accumulator loop computes: the performed writes are the
input-order prefix of writes the backend accepts, and the first rejected
write, if any, is reported. -/
theorem setAllAux_spec :
    ∀ (l : List (Str × SecretValue)) (acc : List WriteRecord)
      (cfg : AkvConfig) (stringify : SecretValue → Str) (fails : Str → Bool),
      setAllAux cfg stringify fails l acc =
        (acc ++ (l.map (fun kv => setOp cfg stringify kv.1 kv.2)).takeWhile
            (fun w => !fails w.id),
         match (l.map (fun kv => setOp cfg stringify kv.1 kv.2)).dropWhile
             (fun w => !fails w.id) with
         | [] => none
         | w :: _ => some w.id)
  | [], acc, cfg, st, fails => by simp [setAllAux]
  | (k, v) :: rest, acc, cfg, st, fails => by
      by_cases hw : fails (setOp cfg st k v).id
      · simp [setAllAux, hw]
      · rw [show setAllAux cfg st fails ((k, v) :: rest) acc =
            setAllAux cfg st fails rest (acc ++ [setOp cfg st k v]) from by
          simp [setAllAux, hw]]
        rw [setAllAux_spec rest (acc ++ [setOp cfg st k v]) cfg st fails]
        simp [hw]

/-- C8: `setAll` flattens and writes one secret per flat key strictly
sequentially in input order, collecting results in that order; nothing is
caught, so the performed writes are exactly the longest input-order prefix
of accepted writes and the first rejected write aborts every later one. -/
theorem C8_setAll_sequential_prefix :
    ∀ cfg stringify fails secrets,
      setAllOp cfg stringify fails secrets =
        (((flatten secrets []).map
            (fun kv => setOp cfg stringify kv.1 kv.2)).takeWhile
            (fun w => !fails w.id),
         match ((flatten secrets []).map
             (fun kv => setOp cfg stringify kv.1 kv.2)).dropWhile
             (fun w => !fails w.id) with
         | [] => none
         | w :: _ => some w.id) := by
  intro cfg stringify fails secrets
  rw [setAllOp, setAllAux_spec]
  simp

/-- C9: `delete` and `restore` await inside the try/catch and can never
surface a rejection, and `purge` does swallow a synchronous throw; but
`purge` hands back the backend promise without awaiting it, so a rejection
— the way the SDK's asynchronous methods report a missing secret — reaches
the caller.  The last conjunct evaluates the failing input: purging an
absent secret against a rejecting backend raises where the claim promises a
soft failure. -/
theorem C9_soft_failure_code_bug :
    (∀ cfg mode key,
      deleteOp cfg mode key ≠ OpOutcome.raised ∧
      restoreOp cfg mode key ≠ OpOutcome.raised) ∧
    (∀ cfg mode key,
      mode (secretName cfg key (isSharedByScan key)) = FailMode.syncThrow →
      purgeOp cfg mode key = OpOutcome.softFailure) ∧
    purgeOp cfgPGE (fun _ => FailMode.asyncReject) "k".toList =
      OpOutcome.raised := by
  refine ⟨?_, ?_, rfl⟩
  · intro cfg mode key
    cases hm : mode (secretName cfg key (isSharedByScan key)) <;>
      simp [deleteOp, restoreOp, hm]
  · intro cfg mode key hm
    simp [purgeOp, hm]

/-- Ground instance: a synchronously-thrown not-found is caught by `purge`
and produces the soft failure. -/
theorem C9_soft_failure_code_bug_witness :
    purgeOp cfgPGE (fun _ => FailMode.syncThrow) "k".toList =
      OpOutcome.softFailure :=
  C9_soft_failure_code_bug.2.1 cfgPGE (fun _ => FailMode.syncThrow)
    "k".toList rfl

/-- C10: an entry bound to an empty mapping contributes nothing to `flatten`
(its recursive flattening is empty, so the merge is the identity), and no
tree holding such a key — at any depth reachable through mappings — survives
the round trip, because `deflatten` of a `flatten` result never contains an
empty-mapping field. -/
theorem C10_empty_mapping_dropped :
    (∀ ns acc k rest,
      flattenAux ns acc ((k, SecretValue.obj []) :: rest) =
        flattenAux ns acc rest) ∧
    (∀ l, hasEmptyObjF l = true → deflatten (flatten l []) ≠ l) := by
  constructor
  · intro ns acc k rest
    simp [flattenAux, objAssign]
  · intro l hl heq
    have h1 : hasEmptyObjF (deflatten (flatten l [])) = false :=
      deflatten_no_empty (fun p hp =>
        flatten_values_not_obj l [] [] (by intro q hq; simp at hq) p hp)
    rw [heq, hl] at h1
    exact Bool.noConfusion h1

/-- Ground instance: `{a: {}}` is silently dropped and cannot round-trip. -/
theorem C10_empty_mapping_dropped_witness :
    hasEmptyObjF [("a".toList, SecretValue.obj [])] = true ∧
    deflatten (flatten [("a".toList, SecretValue.obj [])] []) ≠
      [("a".toList, SecretValue.obj [])] := by
  refine ⟨?_, C10_empty_mapping_dropped.2 _ ?_⟩ <;>
    simp [hasEmptyObjF, valHasEmptyObj]

end AKV
